import Mathlib

/-!
Verification of the shadow-price inlining core of `num_experiment.c`
(profile store, price-to-threshold formula, mutation pass).

Modelling conventions:
* C `double` values are modelled as exact rationals (`ℚ`); the formulas here
  involve only small literals, additions, multiplications and one division,
  so the real-number semantics of the code is captured exactly.
* C `int` results are modelled as `ℤ`; the `(int)` cast of a double is
  truncation toward zero, modelled by `c_trunc`.
* The fixed-size `entries[PROFILE_MAP_SIZE]` array together with its `count`
  field is modelled as a `List` of entries (the live prefix), with the
  capacity check `count < PROFILE_MAP_SIZE` kept explicit.
* A MIR module is modelled by its function items (non-function items are
  skipped by every loop of the code under study); a call instruction's
  `ops[1].u.ref` is modelled by the referenced item's name, and resolving it
  is a name lookup among the module's functions.  The pass mutates only
  instruction codes, never function names or body lengths, so resolving
  against the pre-pass module is observationally identical to the in-place
  resolution the C code performs.
-/

/-- `MIR_MAX_INSNS_FOR_CALL_INLINE` (mir.c native low threshold). -/
def MIR_CALL_INLINE_THRESHOLD : ℤ := 50

/-- `MIR_MAX_INSNS_FOR_INLINE` (mir.c native high threshold). -/
def MIR_INLINE_THRESHOLD : ℤ := 200

/-- `SCALE_FLOOR` from the experiment configuration. -/
def SCALE_FLOOR : ℚ := 1/10

/-- `SCALE_CEIL` from the experiment configuration. -/
def SCALE_CEIL : ℚ := 5

/-- `THRESHOLD_FLOOR` from the experiment configuration. -/
def THRESHOLD_FLOOR : ℤ := 5

/-- `PROFILE_MAP_SIZE`: capacity of the profile table. -/
def PROFILE_MAP_SIZE : ℕ := 256

/-- `MAX_INLINE_CHAIN`: capacity of the per-pass inline chain. -/
def MAX_INLINE_CHAIN : ℕ := 64

/-- `RANDOM_SEED` used by the harness for the random-50% condition. -/
def RANDOM_SEED : ℕ := 42

/-- C cast `(int)x` for a double: truncation toward zero. -/
def c_trunc (q : ℚ) : ℤ :=
q.num.tdiv q.den

/-- `profile_entry_t`: one row of the profile table. -/
structure profile_entry_t where
  func_name : String
  call_count : ℕ
  shadow_price : ℚ
deriving DecidableEq

/-- `profile_map_t`: the live entries (prefix of the C array of length
`count`) plus the `max_count` field cached by normalization. -/
structure profile_map_t where
  entries : List profile_entry_t
  max_count : ℚ
deriving DecidableEq

/-- `profile_map_init`: zeroed table. -/
def profile_map_init : profile_map_t := ⟨[], 0⟩

/-- `profile_map_get`: linear scan for the first entry with the given name
(returns `none` where the C function returns `NULL`). -/
def profile_map_get (m : profile_map_t) (name : String) : Option profile_entry_t :=
m.entries.find? (fun e => e.func_name == name)

/-- Increment the first entry matching `name`; `none` if no entry matches. -/
def inc_first : List profile_entry_t → String → Option (List profile_entry_t)
  | [], _ => none
  | e :: rest, name =>
    if e.func_name = name then
      some (⟨e.func_name, e.call_count + 1, e.shadow_price⟩ :: rest)
    else
      (inc_first rest name).map (fun l => e :: l)

/-- `profile_map_increment`: bump an existing entry, or append a fresh
zero-priced entry when capacity remains; silent no-op when the table is
full and the name is new. -/
def profile_map_increment (m : profile_map_t) (name : String) : profile_map_t :=
match inc_first m.entries name with
| some es => ⟨es, m.max_count⟩
| none =>
    if m.entries.length < PROFILE_MAP_SIZE then
      ⟨m.entries ++ [⟨name, 1, 0⟩], m.max_count⟩
    else m

/-- The `max_count` loop of `profile_map_normalize`: running maximum of the
call counts (as a double), starting from 0. -/
def max_count_fold (es : List profile_entry_t) : ℚ :=
es.foldl (fun acc e => if (e.call_count : ℚ) > acc then (e.call_count : ℚ) else acc) 0

/-- `profile_map_normalize`: recompute `max_count` and, when it is positive,
set every entry's `shadow_price` to `call_count / max_count`.  (The C code
computes the maximum once into `map->max_count`; the pure expression
`max_count_fold m.entries` is written out at each use site here, which is
the same value.) -/
def profile_map_normalize (m : profile_map_t) : profile_map_t :=
if 0 < max_count_fold m.entries then
  ⟨m.entries.map (fun e =>
      ⟨e.func_name, e.call_count, (e.call_count : ℚ) / max_count_fold m.entries⟩),
   max_count_fold m.entries⟩
else
  ⟨m.entries, max_count_fold m.entries⟩

/-- Price lookup as performed at the use sites in `mutate_module`:
`pe ? pe->shadow_price : 0.0`. -/
def profile_lookup (m : profile_map_t) (name : String) : ℚ :=
match profile_map_get m name with
| some e => e.shadow_price
| none => 0

/-- A profiling run: a sequence of `profile_map_increment` calls. -/
def apply_records (m : profile_map_t) (names : List String) : profile_map_t :=
names.foldl profile_map_increment m

/-- An arbitrary later use of the store's population API. -/
inductive store_op where
  | record (name : String)
  | renormalize
deriving DecidableEq

/-- Run one population-API call. -/
def apply_store_op (m : profile_map_t) : store_op → profile_map_t
  | .record name => profile_map_increment m name
  | .renormalize => profile_map_normalize m

/-- Run a sequence of population-API calls. -/
def apply_store_ops (m : profile_map_t) (ops : List store_op) : profile_map_t :=
ops.foldl apply_store_op m

/-- `compute_adjusted_threshold`: the NUM shadow-price formula. -/
def compute_adjusted_threshold (shadow_price : ℚ) (inverted : Bool) : ℤ :=
let lambda := if inverted then 1 - shadow_price else shadow_price
let sf0 := SCALE_FLOOR + lambda * (SCALE_CEIL - SCALE_FLOOR)
let sf1 := if sf0 < SCALE_FLOOR then SCALE_FLOOR else sf0
let scale_factor := if sf1 > SCALE_CEIL then SCALE_CEIL else sf1
let adjusted := c_trunc ((MIR_CALL_INLINE_THRESHOLD : ℚ) * scale_factor)
let adjusted1 := if adjusted < THRESHOLD_FLOOR then THRESHOLD_FLOOR else adjusted
if adjusted1 > MIR_INLINE_THRESHOLD then MIR_INLINE_THRESHOLD else adjusted1

/-- The lower clamp `if x < c then c else x` from the C code. -/
def clamp_lo (c x : ℚ) : ℚ := if x < c then c else x

/-- The upper clamp `if x > c then c else x` from the C code. -/
def clamp_hi (c x : ℚ) : ℚ := if x > c then c else x

/-- Integer lower clamp. -/
def iclamp_lo (c x : ℤ) : ℤ := if x < c then c else x

/-- Integer upper clamp. -/
def iclamp_hi (c x : ℤ) : ℤ := if x > c then c else x

/-- Instruction codes relevant to the pass: `MIR_CALL`, `MIR_INLINE`, and a
stand-in for every other code (which the pass never touches). -/
inductive insn_code where
  | MIR_CALL
  | MIR_INLINE
  | MIR_OTHER
deriving DecidableEq

/-- A MIR instruction, reduced to the fields the pass reads: its code and,
for call-family instructions, the name of the item `ops[1].u.ref` points to
(`none` models a NULL ref; a name that is not a function in the module
models a ref to a non-function item). -/
structure mir_insn where
  code : insn_code
  callee_ref : Option String
deriving DecidableEq

/-- A MIR function item: name and instruction list. -/
structure mir_func where
  name : String
  insns : List mir_insn
deriving DecidableEq

/-- A MIR module, reduced to its function items. -/
structure mir_module where
  funcs : List mir_func
deriving DecidableEq

/-- `count_func_insns`: length of the function's instruction list. -/
def count_func_insns (f : mir_func) : ℕ := f.insns.length

/-- Resolve a callee ref: the referenced item, if it is a function of the
module. -/
def module_find_func (m : mir_module) (name : String) : Option mir_func :=
m.funcs.find? (fun f => f.name == name)

/-- One round of xorshift32 on a 32-bit state. -/
def xorshift32 (s : ℕ) : ℕ :=
let s1 := Nat.xor s ((s <<< 13) % 4294967296)
let s2 := Nat.xor s1 (s1 >>> 17)
Nat.xor s2 ((s2 <<< 5) % 4294967296)

/-- `experiment_condition_t`: the five fixed policies. -/
inductive experiment_condition_t where
  | COND_NO_INLINE
  | COND_BLIND_ALL
  | COND_RANDOM_50
  | COND_SHADOW_PRICE
  | COND_INVERTED_PRICE
deriving DecidableEq

/-- `inline_chain_t`: names promoted so far in the current pass
(`names[0..depth)` in the C struct). -/
structure inline_chain_t where
  names : List String
deriving DecidableEq

/-- `chain_contains`: linear scan of the chain. -/
def chain_contains (chain : inline_chain_t) (name : String) : Bool :=
chain.names.contains name

/-- `chain_push`: append when below `MAX_INLINE_CHAIN`, silently keep the
chain unchanged otherwise (the C function's failure flag is discarded by
its only caller). -/
def chain_push (chain : inline_chain_t) (name : String) : inline_chain_t :=
if chain.names.length < MAX_INLINE_CHAIN then ⟨chain.names ++ [name]⟩ else chain

/-- State threaded through `mutate_module`: the chain, the rng state, and
the `mutations` counter. -/
structure mutate_state where
  chain : inline_chain_t
  rng : ℕ
  mutations : ℕ
deriving DecidableEq

/-- The `switch (condition)` of `mutate_module`: the promotion decision for
one call site, together with the updated rng state (only the random-50%
arm advances the rng). -/
def decide_promote (condition : experiment_condition_t) (profile : profile_map_t)
    (rng : ℕ) (callee_name : String) (callee_insns : ℕ) : Bool × ℕ :=
match condition with
| .COND_NO_INLINE => (false, rng)
| .COND_BLIND_ALL => (true, rng)
| .COND_RANDOM_50 =>
    let r := xorshift32 rng
    (r % 2 == 0, r)
| .COND_SHADOW_PRICE =>
    (decide ((callee_insns : ℤ)
      < compute_adjusted_threshold (profile_lookup profile callee_name) false), rng)
| .COND_INVERTED_PRICE =>
    (decide ((callee_insns : ℤ)
      < compute_adjusted_threshold (profile_lookup profile callee_name) true), rng)

/-- The body of `mutate_module`'s inner loop for one instruction. -/
def mutate_insn (m : mir_module) (condition : experiment_condition_t)
    (profile : profile_map_t) (st : mutate_state) (insn : mir_insn) :
    mir_insn × mutate_state :=
if insn.code = .MIR_CALL then
  match insn.callee_ref with
  | none => (insn, st)
  | some callee_name =>
    match module_find_func m callee_name with
    | none => (insn, st)
    | some callee =>
      if chain_contains st.chain callee_name then (insn, st)
      else
        let d := decide_promote condition profile st.rng callee_name (count_func_insns callee)
        if d.1 then
          (⟨.MIR_INLINE, insn.callee_ref⟩,
           ⟨chain_push st.chain callee_name, d.2, st.mutations + 1⟩)
        else (insn, ⟨st.chain, d.2, st.mutations⟩)
else (insn, st)

/-- `mutate_module`'s inner loop over a function body. -/
def mutate_insn_list (m : mir_module) (condition : experiment_condition_t)
    (profile : profile_map_t) : mutate_state → List mir_insn →
    List mir_insn × mutate_state
  | st, [] => ([], st)
  | st, insn :: rest =>
    let r1 := mutate_insn m condition profile st insn
    let r2 := mutate_insn_list m condition profile r1.2 rest
    (r1.1 :: r2.1, r2.2)

/-- `mutate_module`'s outer loop over the module's function items. -/
def mutate_func_list (m : mir_module) (condition : experiment_condition_t)
    (profile : profile_map_t) : mutate_state → List mir_func →
    List mir_func × mutate_state
  | st, [] => ([], st)
  | st, f :: rest =>
    let r1 := mutate_insn_list m condition profile st f.insns
    let r2 := mutate_func_list m condition profile r1.2 rest
    (⟨f.name, r1.1⟩ :: r2.1, r2.2)

/-- `mutate_module` with its final internal state exposed. -/
def mutate_module_full (m : mir_module) (condition : experiment_condition_t)
    (profile : profile_map_t) (rng_state : ℕ) : mir_module × mutate_state :=
let r := mutate_func_list m condition profile ⟨⟨[]⟩, rng_state, 0⟩ m.funcs
(⟨r.1⟩, r.2)

/-- `mutate_module`: the mutated module and the promotion count. -/
def mutate_module (m : mir_module) (condition : experiment_condition_t)
    (profile : profile_map_t) (rng_state : ℕ) : mir_module × ℕ :=
let r := mutate_module_full m condition profile rng_state
(r.1, r.2.mutations)

/-- Number of call sites of a body that a pass promoted to `MIR_INLINE`
whose callee ref is `nm` (positions paired between the original and the
mutated body). -/
def promoted_in_insn_lists (orig new : List mir_insn) (nm : String) : ℕ :=
(orig.zip new).countP
  (fun p => p.1.code == insn_code.MIR_CALL && p.2.code == insn_code.MIR_INLINE
    && p.1.callee_ref == some nm)

/-- Promoted-call-site count over paired function lists. -/
def promoted_in_func_lists (orig new : List mir_func) (nm : String) : ℕ :=
((orig.zip new).map (fun p => promoted_in_insn_lists p.1.insns p.2.insns nm)).sum

/-- Promoted-call-site count for a whole module, per callee name. -/
def promoted_in_module (orig new : mir_module) (nm : String) : ℕ :=
promoted_in_func_lists orig.funcs new.funcs nm

/-- The hot/cold profile of the spec scenario: 1000 observations of "hot"
and one of "cold", then normalized. -/
def hot_cold_store : profile_map_t :=
profile_map_normalize (apply_records profile_map_init (List.replicate 1000 "hot" ++ ["cold"]))

/-- 64 distinct single-character callee names (cheap to compare). -/
def overflow_front : List String :=
["#", "$", "%", "0", "1", "2", "3", "4", "5", "6", "7", "8", "9", "A", "B", "C", "D", "E", "F", "G", "H", "I", "J", "K", "L", "M", "N", "O", "P", "Q", "R", "S", "T", "U", "V", "W", "X", "Y", "Z", "a", "b", "c", "d", "e", "f", "g", "h", "i", "j", "k", "l", "m", "n", "o", "p", "q", "r", "s", "t", "u", "v", "w", "x", "y"]

/-- The 65 distinct callee names: the 64 of `overflow_front` and "z". -/
def overflow_names : List String :=
overflow_front ++ ["z"]

/-- The callee names of the driver, in call order: the 65 distinct names
once each, then "z" (the 65th) a second time — one name past the chain
capacity of 64. -/
def overflow_call_names : List String :=
overflow_names ++ ["z"]

/-- The 65 distinct callees, each with one (non-call) instruction. -/
def overflow_callees : List mir_func :=
overflow_names.map (fun nm => ⟨nm, [⟨.MIR_OTHER, none⟩]⟩)

/-- A driver whose body is exactly one call per name of
`overflow_call_names`. -/
def overflow_caller : mir_func :=
⟨"main", overflow_call_names.map (fun nm => ⟨.MIR_CALL, some nm⟩)⟩

/-- A module with more distinct promotable callees than `MAX_INLINE_CHAIN`. -/
def overflow_module : mir_module :=
⟨overflow_caller :: overflow_callees⟩

/-- The codepoint sequence of a string (an injective observation that the
kernel can compare by native natural-number arithmetic). -/
def str_codes (s : String) : List ℕ :=
s.data.map Char.toNat

/-- The chain produced by pushing a run of names in order. -/
def blind_chain : inline_chain_t → List String → inline_chain_t
  | c, [] => c
  | c, nm :: rest => blind_chain (chain_push c nm) rest

/-- Every name of the run is absent from the chain at its own step (with
the chain evolving by pushes). -/
def all_fresh : inline_chain_t → List String → Bool
  | _, [] => true
  | c, nm :: rest => !(chain_contains c nm) && all_fresh (chain_push c nm) rest

/-! ## Theorems -/

/-- On non-negative rationals the C cast agrees with the floor. -/
theorem c_trunc_eq_floor (q : ℚ) (h : 0 ≤ q) : c_trunc q = ⌊q⌋ := by
  rw [c_trunc, Rat.floor_def]
  exact Int.tdiv_eq_ediv (Rat.num_nonneg.2 h) (Int.natCast_nonneg _)

/-- Evaluate the C cast on a concrete non-negative rational. -/
theorem c_trunc_eval (q : ℚ) (z : ℤ) (h0 : 0 ≤ q) (h1 : (z : ℚ) ≤ q) (h2 : q < z + 1) :
    c_trunc q = z := by
  rw [c_trunc_eq_floor q h0, Int.floor_eq_iff]
  exact ⟨h1, h2⟩

/-- `compute_adjusted_threshold` written as the pipeline of its stages. -/
theorem compute_adjusted_threshold_pipeline (p : ℚ) (inv : Bool) :
    compute_adjusted_threshold p inv =
      iclamp_hi MIR_INLINE_THRESHOLD (iclamp_lo THRESHOLD_FLOOR (c_trunc
        ((MIR_CALL_INLINE_THRESHOLD : ℚ) * clamp_hi SCALE_CEIL (clamp_lo SCALE_FLOOR
          (SCALE_FLOOR + (if inv then 1 - p else p) * (SCALE_CEIL - SCALE_FLOOR)))))) := rfl

/-- Inversion only replaces the price by `1 - price` up front. -/
theorem compute_adjusted_threshold_inv (p : ℚ) (inv : Bool) :
    compute_adjusted_threshold p inv
      = compute_adjusted_threshold (if inv then 1 - p else p) false := by
  cases inv <;> rfl

theorem clamp_lo_mono (c a b : ℚ) (h : a ≤ b) : clamp_lo c a ≤ clamp_lo c b := by
  unfold clamp_lo; split_ifs <;> linarith

theorem clamp_hi_mono (c a b : ℚ) (h : a ≤ b) : clamp_hi c a ≤ clamp_hi c b := by
  unfold clamp_hi; split_ifs <;> linarith

theorem clamp_lo_lb (c a : ℚ) : c ≤ clamp_lo c a := by
  unfold clamp_lo; split_ifs <;> linarith

theorem clamp_hi_lb (c a d : ℚ) (h1 : d ≤ a) (h2 : d ≤ c) : d ≤ clamp_hi c a := by
  unfold clamp_hi; split_ifs <;> linarith

theorem c_trunc_mono (a b : ℚ) (h0 : 0 ≤ a) (h : a ≤ b) : c_trunc a ≤ c_trunc b := by
  rw [c_trunc_eq_floor a h0, c_trunc_eq_floor b (le_trans h0 h)]
  exact Int.floor_le_floor h

theorem iclamp_mono (lo hi a b : ℤ) (h : a ≤ b) :
    iclamp_hi hi (iclamp_lo lo a) ≤ iclamp_hi hi (iclamp_lo lo b) := by
  unfold iclamp_hi iclamp_lo; split_ifs <;> omega

/-- Monotonicity of the threshold in the price for the non-inverted flag,
for arbitrary rational prices. -/
theorem threshold_mono_false (p1 p2 : ℚ) (h : p1 ≤ p2) :
    compute_adjusted_threshold p1 false ≤ compute_adjusted_threshold p2 false := by
  rw [compute_adjusted_threshold_pipeline, compute_adjusted_threshold_pipeline]
  simp only [Bool.false_eq_true, if_false]
  have hdiff : (0:ℚ) ≤ SCALE_CEIL - SCALE_FLOOR := by
    norm_num [SCALE_CEIL, SCALE_FLOOR]
  have h0 : SCALE_FLOOR + p1 * (SCALE_CEIL - SCALE_FLOOR)
      ≤ SCALE_FLOOR + p2 * (SCALE_CEIL - SCALE_FLOOR) := by nlinarith
  have h1 := clamp_lo_mono SCALE_FLOOR _ _ h0
  have h2 := clamp_hi_mono SCALE_CEIL _ _ h1
  have hlb : (0:ℚ) ≤ clamp_hi SCALE_CEIL (clamp_lo SCALE_FLOOR
      (SCALE_FLOOR + p1 * (SCALE_CEIL - SCALE_FLOOR))) := by
    refine clamp_hi_lb _ _ _ (le_trans ?_ (clamp_lo_lb _ _)) ?_ <;>
      norm_num [SCALE_FLOOR, SCALE_CEIL]
  have h3 : (MIR_CALL_INLINE_THRESHOLD : ℚ) * clamp_hi SCALE_CEIL (clamp_lo SCALE_FLOOR
        (SCALE_FLOOR + p1 * (SCALE_CEIL - SCALE_FLOOR)))
      ≤ (MIR_CALL_INLINE_THRESHOLD : ℚ) * clamp_hi SCALE_CEIL (clamp_lo SCALE_FLOOR
        (SCALE_FLOOR + p2 * (SCALE_CEIL - SCALE_FLOOR))) := by
    have h50 : (0:ℚ) ≤ (MIR_CALL_INLINE_THRESHOLD : ℚ) := by
      norm_num [MIR_CALL_INLINE_THRESHOLD]
    exact mul_le_mul_of_nonneg_left h2 h50
  have h4 := c_trunc_mono _ _
    (mul_nonneg (by norm_num [MIR_CALL_INLINE_THRESHOLD]) hlb) h3
  exact iclamp_mono THRESHOLD_FLOOR MIR_INLINE_THRESHOLD _ _ h4

/-- C3: the threshold is non-decreasing in price when not inverted and
non-increasing when inverted. -/
theorem threshold_monotone (p1 p2 : ℚ) (h : p1 ≤ p2) :
    compute_adjusted_threshold p1 false ≤ compute_adjusted_threshold p2 false ∧
    compute_adjusted_threshold p2 true ≤ compute_adjusted_threshold p1 true := by
  refine ⟨threshold_mono_false p1 p2 h, ?_⟩
  rw [compute_adjusted_threshold_inv p1 true, compute_adjusted_threshold_inv p2 true]
  simp only [if_pos]
  exact threshold_mono_false (1 - p2) (1 - p1) (by linarith)

/-- Witness for C3 at the pair 0 ≤ 1. -/
theorem threshold_monotone_witness :
    compute_adjusted_threshold 0 false ≤ compute_adjusted_threshold 1 false ∧
    compute_adjusted_threshold 1 true ≤ compute_adjusted_threshold 0 true :=
  threshold_monotone 0 1 (by norm_num)

/-- C1: For every price in [0,1] and every value of the inverted flag,
`compute_adjusted_threshold` returns an integer in [5, 200]. -/
theorem threshold_bounds (price : ℚ) (inverted : Bool)
    (h0 : 0 ≤ price) (h1 : price ≤ 1) :
    THRESHOLD_FLOOR ≤ compute_adjusted_threshold price inverted ∧
    compute_adjusted_threshold price inverted ≤ MIR_INLINE_THRESHOLD := by
  unfold compute_adjusted_threshold THRESHOLD_FLOOR MIR_INLINE_THRESHOLD
  dsimp only
  split_ifs <;> omega

/-- Witness for C1 at price 1/2, inverted = false. -/
theorem threshold_bounds_witness :
    THRESHOLD_FLOOR ≤ compute_adjusted_threshold (1/2) false ∧
    compute_adjusted_threshold (1/2) false ≤ MIR_INLINE_THRESHOLD :=
  threshold_bounds (1/2) false (by norm_num) (by norm_num)

/-- Threshold at the hot extreme, not inverted: 250 clamped to 200. -/
theorem threshold_at_one_false : compute_adjusted_threshold 1 false = 200 := by
  rw [compute_adjusted_threshold_pipeline]
  have e1 : clamp_hi SCALE_CEIL (clamp_lo SCALE_FLOOR
      (SCALE_FLOOR + (if false then 1 - (1:ℚ) else 1) * (SCALE_CEIL - SCALE_FLOOR))) = 5 := by
    norm_num [clamp_lo, clamp_hi, SCALE_FLOOR, SCALE_CEIL]
  rw [e1]
  have e2 : c_trunc ((MIR_CALL_INLINE_THRESHOLD : ℚ) * 5) = 250 := by
    apply c_trunc_eval <;> norm_num [MIR_CALL_INLINE_THRESHOLD]
  rw [e2]
  norm_num [iclamp_lo, iclamp_hi, THRESHOLD_FLOOR, MIR_INLINE_THRESHOLD]

/-- Threshold at the hot extreme, inverted: scale floor, giving 5. -/
theorem threshold_at_one_true : compute_adjusted_threshold 1 true = 5 := by
  rw [compute_adjusted_threshold_pipeline]
  have e1 : clamp_hi SCALE_CEIL (clamp_lo SCALE_FLOOR
      (SCALE_FLOOR + (if true then 1 - (1:ℚ) else 1) * (SCALE_CEIL - SCALE_FLOOR))) = 1/10 := by
    norm_num [clamp_lo, clamp_hi, SCALE_FLOOR, SCALE_CEIL]
  rw [e1]
  have e2 : c_trunc ((MIR_CALL_INLINE_THRESHOLD : ℚ) * (1/10)) = 5 := by
    apply c_trunc_eval <;> norm_num [MIR_CALL_INLINE_THRESHOLD]
  rw [e2]
  norm_num [iclamp_lo, iclamp_hi, THRESHOLD_FLOOR, MIR_INLINE_THRESHOLD]

/-- Threshold at price 1/1000, not inverted: truncates to 5. -/
theorem threshold_at_milli_false : compute_adjusted_threshold (1/1000) false = 5 := by
  rw [compute_adjusted_threshold_pipeline]
  have e1 : clamp_hi SCALE_CEIL (clamp_lo SCALE_FLOOR
      (SCALE_FLOOR + (if false then 1 - (1:ℚ)/1000 else (1:ℚ)/1000) * (SCALE_CEIL - SCALE_FLOOR)))
      = 1049/10000 := by
    norm_num [clamp_lo, clamp_hi, SCALE_FLOOR, SCALE_CEIL]
  rw [e1]
  have e2 : c_trunc ((MIR_CALL_INLINE_THRESHOLD : ℚ) * (1049/10000)) = 5 := by
    apply c_trunc_eval <;> norm_num [MIR_CALL_INLINE_THRESHOLD]
  rw [e2]
  norm_num [iclamp_lo, iclamp_hi, THRESHOLD_FLOOR, MIR_INLINE_THRESHOLD]

/-- `max_count_fold` only reads call counts. -/
theorem max_count_fold_map (es : List profile_entry_t) (f : profile_entry_t → profile_entry_t)
    (h : ∀ e, (f e).call_count = e.call_count) :
    max_count_fold (es.map f) = max_count_fold es := by
  unfold max_count_fold
  rw [List.foldl_map]
  simp only [h]

/-- C7: calling `normalize()` twice with no intervening `record()` leaves
every entry's `shadow_price` unchanged (the whole store is unchanged), and
with no entries the entry list stays empty. -/
theorem normalize_idempotent (m : profile_map_t) :
    profile_map_normalize (profile_map_normalize m) = profile_map_normalize m ∧
    (m.entries = [] → (profile_map_normalize m).entries = []) := by
  constructor
  · by_cases hmc : 0 < max_count_fold m.entries
    · have hin : profile_map_normalize m =
          ⟨m.entries.map (fun e =>
              ⟨e.func_name, e.call_count, (e.call_count : ℚ) / max_count_fold m.entries⟩),
           max_count_fold m.entries⟩ := by
        rw [profile_map_normalize, if_pos hmc]
      have hmax : max_count_fold (profile_map_normalize m).entries
          = max_count_fold m.entries := by
        rw [hin]
        exact max_count_fold_map _ _ (fun e => rfl)
      rw [profile_map_normalize, hmax, if_pos hmc, hin]
      dsimp only
      rw [List.map_map]
      rfl
    · have hin : profile_map_normalize m = ⟨m.entries, max_count_fold m.entries⟩ := by
        rw [profile_map_normalize, if_neg hmc]
      rw [profile_map_normalize, hin]
      dsimp only
      rw [if_neg hmc]
  · intro h
    rw [profile_map_normalize, h]
    norm_num [max_count_fold]

/-- Witness for C7 on the empty store. -/
theorem normalize_idempotent_witness :
    profile_map_normalize (profile_map_normalize profile_map_init)
      = profile_map_normalize profile_map_init ∧
    (profile_map_normalize profile_map_init).entries = [] :=
  ⟨(normalize_idempotent profile_map_init).1,
   (normalize_idempotent profile_map_init).2 rfl⟩

/-- Bumping an entry of a different name does not change what a scan for
`nm` finds. -/
theorem inc_first_find_ne (es : List profile_entry_t) :
    ∀ (es' : List profile_entry_t) (name nm : String), name ≠ nm →
    inc_first es name = some es' →
    es'.find? (fun e => e.func_name == nm) = es.find? (fun e => e.func_name == nm) := by
  induction es with
  | nil =>
    intro es' name nm h he
    simp [inc_first] at he
  | cons e rest ih =>
    intro es' name nm h he
    rw [inc_first] at he
    by_cases hn : e.func_name = name
    · rw [if_pos hn] at he
      cases he
      rw [List.find?_cons_of_neg _ (by simp [hn, h]),
        List.find?_cons_of_neg _ (by simp [hn, h])]
    · rw [if_neg hn] at he
      cases hrec : inc_first rest name with
      | none => rw [hrec] at he; simp at he
      | some l =>
        rw [hrec, Option.map_some'] at he
        cases he
        by_cases hm : e.func_name = nm
        · rw [List.find?_cons_of_pos _ (by simp [hm]),
            List.find?_cons_of_pos _ (by simp [hm])]
        · rw [List.find?_cons_of_neg _ (by simp [hm]),
            List.find?_cons_of_neg _ (by simp [hm])]
          exact ih l name nm h hrec

/-- A record call for a different name does not change what `get` returns
for `nm`. -/
theorem profile_map_get_increment_ne (m : profile_map_t) (name nm : String)
    (h : name ≠ nm) :
    profile_map_get (profile_map_increment m name) nm = profile_map_get m nm := by
  unfold profile_map_increment
  cases hinc : inc_first m.entries name with
  | some es =>
    exact inc_first_find_ne m.entries es name nm h hinc
  | none =>
    by_cases hlen : m.entries.length < PROFILE_MAP_SIZE
    · rw [if_pos hlen]
      unfold profile_map_get
      dsimp only
      rw [List.find?_append]
      have : ([(⟨name, 1, 0⟩ : profile_entry_t)].find? (fun e => e.func_name == nm)) = none := by
        simp [h]
      rw [this, Option.or_none]
    · rw [if_neg hlen]

/-- A run of record calls never mentioning `nm` does not change what `get`
returns for `nm`. -/
theorem apply_records_get_ne (names : List String) :
    ∀ (m : profile_map_t) (nm : String), nm ∉ names →
    profile_map_get (apply_records m names) nm = profile_map_get m nm := by
  induction names with
  | nil => intro m nm _; rfl
  | cons n rest ih =>
    intro m nm h
    have hne : n ≠ nm := by
      intro he
      exact h (he ▸ List.mem_cons_self n rest)
    have hrest : nm ∉ rest := fun hm => h (List.mem_cons_of_mem _ hm)
    rw [apply_records, List.foldl_cons, ← apply_records, ih _ _ hrest,
      profile_map_get_increment_ne _ _ _ hne]

/-- What `get` returns after a normalize, in terms of the store before. -/
theorem profile_map_get_normalize (m : profile_map_t) (nm : String) :
    profile_map_get (profile_map_normalize m) nm
      = (profile_map_get m nm).map (fun e =>
          if 0 < max_count_fold m.entries then
            ⟨e.func_name, e.call_count, (e.call_count : ℚ) / max_count_fold m.entries⟩
          else e) := by
  unfold profile_map_normalize profile_map_get
  by_cases hmc : 0 < max_count_fold m.entries
  · rw [if_pos hmc]
    dsimp only
    rw [List.find?_map]
    simp only [if_pos hmc]
    rfl
  · rw [if_neg hmc]
    dsimp only
    simp only [if_neg hmc]
    cases m.entries.find? (fun e => e.func_name == nm) <;> rfl

/-- The running maximum never drops below its accumulator. -/
theorem max_count_fold_acc_le (es : List profile_entry_t) :
    ∀ a : ℚ, a ≤ es.foldl
      (fun acc e => if (e.call_count : ℚ) > acc then (e.call_count : ℚ) else acc) a := by
  induction es with
  | nil => intro a; simp
  | cons e rest ih =>
    intro a
    rw [List.foldl_cons]
    refine le_trans ?_ (ih _)
    split_ifs with hgt
    · linarith
    · linarith

/-- Every member's call count is below the running maximum. -/
theorem mem_le_max_count_fold_acc (es : List profile_entry_t) :
    ∀ (a : ℚ) (e : profile_entry_t), e ∈ es →
    (e.call_count : ℚ) ≤ es.foldl
      (fun acc x => if (x.call_count : ℚ) > acc then (x.call_count : ℚ) else acc) a := by
  induction es with
  | nil => intro a e he; cases he
  | cons x rest ih =>
    intro a e he
    rw [List.foldl_cons]
    rcases List.mem_cons.1 he with he | he
    · subst he
      refine le_trans ?_ (max_count_fold_acc_le rest _)
      split_ifs with hgt
      · linarith
      · linarith
    · exact ih _ e he

/-- Every member's call count is at most `max_count_fold`. -/
theorem mem_le_max_count_fold (es : List profile_entry_t) (e : profile_entry_t)
    (he : e ∈ es) : (e.call_count : ℚ) ≤ max_count_fold es :=
  mem_le_max_count_fold_acc es 0 e he

/-- In a non-empty list of entries with positive counts the maximum is
positive. -/
theorem max_count_fold_pos (es : List profile_entry_t) (hne : es ≠ [])
    (hcounts : ∀ e ∈ es, 1 ≤ e.call_count) : 0 < max_count_fold es := by
  cases es with
  | nil => exact absurd rfl hne
  | cons e rest =>
    have h1 : (1:ℚ) ≤ (e.call_count : ℚ) := by
      exact_mod_cast hcounts e (List.mem_cons_self e rest)
    have h2 := mem_le_max_count_fold (e :: rest) e (List.mem_cons_self e rest)
    linarith

/-- `inc_first` keeps every call count at least 1. -/
theorem inc_first_counts (es : List profile_entry_t) :
    ∀ (es' : List profile_entry_t) (name : String), inc_first es name = some es' →
    (∀ e ∈ es, 1 ≤ e.call_count) → ∀ e ∈ es', 1 ≤ e.call_count := by
  induction es with
  | nil => intro es' name he _; simp [inc_first] at he
  | cons x rest ih =>
    intro es' name he hall
    rw [inc_first] at he
    by_cases hn : x.func_name = name
    · rw [if_pos hn] at he
      cases he
      intro e he'
      rcases List.mem_cons.1 he' with he' | he'
      · subst he'; exact Nat.le_add_left 1 x.call_count
      · exact hall e (List.mem_cons_of_mem _ he')
    · rw [if_neg hn] at he
      cases hrec : inc_first rest name with
      | none => rw [hrec] at he; simp at he
      | some l =>
        rw [hrec, Option.map_some'] at he
        cases he
        intro e he'
        rcases List.mem_cons.1 he' with he' | he'
        · subst he'; exact hall e (List.mem_cons_self e rest)
        · exact ih l name hrec (fun e2 h2 => hall e2 (List.mem_cons_of_mem _ h2)) e he'

/-- `profile_map_increment` keeps every call count at least 1. -/
theorem increment_counts (m : profile_map_t) (name : String)
    (h : ∀ e ∈ m.entries, 1 ≤ e.call_count) :
    ∀ e ∈ (profile_map_increment m name).entries, 1 ≤ e.call_count := by
  unfold profile_map_increment
  cases hinc : inc_first m.entries name with
  | some es => exact inc_first_counts m.entries es name hinc h
  | none =>
    by_cases hlen : m.entries.length < PROFILE_MAP_SIZE
    · rw [if_pos hlen]
      intro e he
      rcases List.mem_append.1 he with he | he
      · exact h e he
      · rcases List.mem_singleton.1 he with rfl
        exact le_refl 1
    · rw [if_neg hlen]; exact h

/-- Every store built by record calls has all call counts at least 1. -/
theorem apply_records_counts (names : List String) :
    ∀ m : profile_map_t, (∀ e ∈ m.entries, 1 ≤ e.call_count) →
    ∀ e ∈ (apply_records m names).entries, 1 ≤ e.call_count := by
  induction names with
  | nil => intro m h; exact h
  | cons n rest ih =>
    intro m h
    rw [apply_records, List.foldl_cons, ← apply_records]
    exact ih _ (increment_counts m n h)

/-- C10: on any store reachable by record calls and non-empty, normalize
puts every shadow price in (0, 1], gives price exactly 1 to entries whose
count is the maximum, and changes no name and no call count. -/
theorem normalize_reachable_invariants (names : List String)
    (hne : (apply_records profile_map_init names).entries ≠ []) :
    (∀ e ∈ (profile_map_normalize (apply_records profile_map_init names)).entries,
        0 < e.shadow_price ∧ e.shadow_price ≤ 1 ∧
        ((e.call_count : ℚ) = max_count_fold (apply_records profile_map_init names).entries →
          e.shadow_price = 1)) ∧
    (profile_map_normalize (apply_records profile_map_init names)).entries.map
        (fun e => (e.func_name, e.call_count))
      = (apply_records profile_map_init names).entries.map
        (fun e => (e.func_name, e.call_count)) := by
  have hcounts : ∀ e ∈ (apply_records profile_map_init names).entries, 1 ≤ e.call_count :=
    apply_records_counts names profile_map_init (by intro e he; cases he)
  have hmc : 0 < max_count_fold (apply_records profile_map_init names).entries :=
    max_count_fold_pos _ hne hcounts
  rw [profile_map_normalize, if_pos hmc]
  constructor
  · intro e he
    dsimp only at he
    rcases List.mem_map.1 he with ⟨e0, he0, rfl⟩
    dsimp only
    have hc1 : (1:ℚ) ≤ (e0.call_count : ℚ) := by exact_mod_cast hcounts e0 he0
    have hcpos : (0:ℚ) < (e0.call_count : ℚ) := by linarith
    have hle := mem_le_max_count_fold _ e0 he0
    refine ⟨div_pos hcpos hmc, (div_le_one hmc).2 hle, ?_⟩
    intro hmax
    rw [hmax]
    exact div_self (ne_of_gt hmc)
  · dsimp only
    rw [List.map_map]
    rfl

/-- Witness for C10 with the single record call "a". -/
theorem normalize_reachable_invariants_witness :
    (∀ e ∈ (profile_map_normalize (apply_records profile_map_init ["a"])).entries,
        0 < e.shadow_price ∧ e.shadow_price ≤ 1 ∧
        ((e.call_count : ℚ) = max_count_fold (apply_records profile_map_init ["a"]).entries →
          e.shadow_price = 1)) ∧
    (profile_map_normalize (apply_records profile_map_init ["a"])).entries.map
        (fun e => (e.func_name, e.call_count))
      = (apply_records profile_map_init ["a"]).entries.map
        (fun e => (e.func_name, e.call_count)) :=
  normalize_reachable_invariants ["a"] (by decide)

/-- Normalize does not change the maximum call count. -/
theorem max_count_fold_normalize (m : profile_map_t) :
    max_count_fold (profile_map_normalize m).entries = max_count_fold m.entries := by
  unfold profile_map_normalize
  by_cases h : 0 < max_count_fold m.entries
  · rw [if_pos h]
    exact max_count_fold_map _ _ (fun e => rfl)
  · rw [if_neg h]

/-- Counterexample to C6 as stated: after `record("a")` and a first
normalize, `lookup("a") = 1`; two further `record("b")` calls never touch
the entry "a", yet the second normalize drops its price to 1/2. -/
theorem renormalize_counterexample :
    profile_lookup (profile_map_normalize (apply_records profile_map_init ["a"])) "a" = 1 ∧
    profile_lookup (profile_map_normalize
        (apply_records (profile_map_normalize (apply_records profile_map_init ["a"]))
          ["b", "b"]))
      "a" = 1/2 ∧
    ((1 : ℚ) ≠ 1/2) := by
  refine ⟨?_, ?_, by norm_num⟩
  · norm_num [profile_lookup, profile_map_get, profile_map_normalize, apply_records,
      profile_map_increment, inc_first, profile_map_init, PROFILE_MAP_SIZE, max_count_fold]
  · norm_num [profile_lookup, profile_map_get, profile_map_normalize, apply_records,
      profile_map_increment, inc_first, profile_map_init, PROFILE_MAP_SIZE, max_count_fold,
      show ("a" : String) ≠ "b" from by decide, show ("b" : String) ≠ "a" from by decide]

/-- C6 (amended): after a first normalize, a run of record calls that never
mentions `nm` and leaves the maximum call count unchanged, followed by a
second normalize, leaves the price looked up for `nm` equal to its value
after the first normalize. -/
theorem renormalize_stable_of_max_unchanged (m : profile_map_t)
    (names : List String) (nm : String)
    (hnm : nm ∉ names)
    (hmax : max_count_fold
          (apply_records (profile_map_normalize m) names).entries
        = max_count_fold (profile_map_normalize m).entries) :
    profile_lookup
        (profile_map_normalize (apply_records (profile_map_normalize m) names)) nm
      = profile_lookup (profile_map_normalize m) nm := by
  have hmn : max_count_fold (profile_map_normalize m).entries
      = max_count_fold m.entries := max_count_fold_normalize m
  have hmax' : max_count_fold
      (apply_records (profile_map_normalize m) names).entries
      = max_count_fold m.entries := hmax.trans hmn
  unfold profile_lookup
  rw [profile_map_get_normalize, apply_records_get_ne names _ nm hnm,
    profile_map_get_normalize, hmax']
  cases hg : profile_map_get m nm with
  | none => rfl
  | some e =>
    simp only [Option.map_some']
    by_cases hM : 0 < max_count_fold m.entries
    · simp only [if_pos hM]
    · simp only [if_neg hM]

/-- Witness for C6 (amended): store with "a" recorded twice, one later
record of "b" (maximum stays 2), price of "a" unchanged at re-normalize. -/
theorem renormalize_stable_of_max_unchanged_witness :
    profile_lookup
        (profile_map_normalize (apply_records (profile_map_normalize
          (profile_map_increment (profile_map_increment profile_map_init "a") "a"))
          ["b"])) "a"
      = profile_lookup (profile_map_normalize
          (profile_map_increment (profile_map_increment profile_map_init "a") "a")) "a" :=
  renormalize_stable_of_max_unchanged
    (profile_map_increment (profile_map_increment profile_map_init "a") "a")
    ["b"] "a" (by decide) (by decide)

/-- A scan for an absent name finds nothing to bump. -/
theorem inc_first_none_absent (es : List profile_entry_t) :
    ∀ nm : String, (∀ e ∈ es, e.func_name ≠ nm) → inc_first es nm = none := by
  induction es with
  | nil => intro nm _; rfl
  | cons e rest ih =>
    intro nm h
    rw [inc_first, if_neg (h e (List.mem_cons_self e rest)),
      ih nm (fun e2 h2 => h e2 (List.mem_cons_of_mem _ h2))]
    rfl

/-- `inc_first` preserves the name sequence. -/
theorem inc_first_names (es : List profile_entry_t) :
    ∀ (es' : List profile_entry_t) (name : String), inc_first es name = some es' →
    es'.map (fun e => e.func_name) = es.map (fun e => e.func_name) := by
  induction es with
  | nil => intro es' name he; simp [inc_first] at he
  | cons e rest ih =>
    intro es' name he
    rw [inc_first] at he
    by_cases hn : e.func_name = name
    · rw [if_pos hn] at he
      cases he
      rfl
    · rw [if_neg hn] at he
      cases hrec : inc_first rest name with
      | none => rw [hrec] at he; simp at he
      | some l =>
        rw [hrec, Option.map_some'] at he
        cases he
        simp only [List.map_cons]
        rw [ih l name hrec]

/-- `record` on a full table with an absent name is a silent no-op. -/
theorem increment_full_absent (m : profile_map_t) (nm : String)
    (hfull : m.entries.length = PROFILE_MAP_SIZE)
    (habsent : ∀ e ∈ m.entries, e.func_name ≠ nm) :
    profile_map_increment m nm = m := by
  unfold profile_map_increment
  rw [inc_first_none_absent m.entries nm habsent, hfull]
  simp

/-- Any later population-API call keeps a full table full and keeps an
absent name absent. -/
theorem store_op_preserves_full_absent (m : profile_map_t) (nm : String) (op : store_op)
    (hfull : m.entries.length = PROFILE_MAP_SIZE)
    (habsent : ∀ e ∈ m.entries, e.func_name ≠ nm) :
    (apply_store_op m op).entries.length = PROFILE_MAP_SIZE ∧
    ∀ e ∈ (apply_store_op m op).entries, e.func_name ≠ nm := by
  cases op with
  | record name =>
    dsimp only [apply_store_op]
    unfold profile_map_increment
    cases hinc : inc_first m.entries name with
    | none =>
      rw [hfull]
      simp only [lt_self_iff_false, if_false]
      exact ⟨hfull, habsent⟩
    | some es =>
      have hnames := inc_first_names m.entries es name hinc
      constructor
      · have := congrArg List.length hnames
        simp only [List.length_map] at this
        rw [this, hfull]
      · intro e he
        have : e.func_name ∈ es.map (fun e2 => e2.func_name) :=
          List.mem_map.2 ⟨e, he, rfl⟩
        rw [hnames] at this
        rcases List.mem_map.1 this with ⟨e0, he0, heq⟩
        rw [← heq]
        exact habsent e0 he0
  | renormalize =>
    dsimp only [apply_store_op]
    unfold profile_map_normalize
    by_cases hmc : 0 < max_count_fold m.entries
    · rw [if_pos hmc]
      constructor
      · simp only [List.length_map]
        exact hfull
      · intro e he
        dsimp only at he
        rcases List.mem_map.1 he with ⟨e0, he0, rfl⟩
        exact habsent e0 he0
    · rw [if_neg hmc]
      exact ⟨hfull, habsent⟩

/-- The full/absent invariant holds after any sequence of later calls. -/
theorem store_ops_preserve_full_absent (ops : List store_op) :
    ∀ (m : profile_map_t) (nm : String),
    m.entries.length = PROFILE_MAP_SIZE →
    (∀ e ∈ m.entries, e.func_name ≠ nm) →
    (apply_store_ops m ops).entries.length = PROFILE_MAP_SIZE ∧
    ∀ e ∈ (apply_store_ops m ops).entries, e.func_name ≠ nm := by
  induction ops with
  | nil => intro m nm hfull habsent; exact ⟨hfull, habsent⟩
  | cons op rest ih =>
    intro m nm hfull habsent
    rw [apply_store_ops, List.foldl_cons, ← apply_store_ops]
    have hstep := store_op_preserves_full_absent m nm op hfull habsent
    exact ih _ nm hstep.1 hstep.2

/-- An absent name looks up to the cold default 0. -/
theorem profile_lookup_absent (m : profile_map_t) (nm : String)
    (habsent : ∀ e ∈ m.entries, e.func_name ≠ nm) :
    profile_lookup m nm = 0 := by
  unfold profile_lookup profile_map_get
  rw [List.find?_eq_none.2 (fun e he => by simp [habsent e he])]

/-- C8: recording a new name on a full store leaves the store completely
unchanged, and every later lookup of that name (after any further record
or normalize calls) returns the cold default 0. -/
theorem capacity_drop_cold (m : profile_map_t) (nm : String) (ops : List store_op)
    (hfull : m.entries.length = PROFILE_MAP_SIZE)
    (habsent : ∀ e ∈ m.entries, e.func_name ≠ nm) :
    profile_map_increment m nm = m ∧
    profile_lookup (apply_store_ops (profile_map_increment m nm) ops) nm = 0 := by
  have hid := increment_full_absent m nm hfull habsent
  refine ⟨hid, ?_⟩
  rw [hid]
  exact profile_lookup_absent _ nm (store_ops_preserve_full_absent ops m nm hfull habsent).2

set_option maxRecDepth 4096 in
/-- Witness for C8: a full table of 256 entries named "f", the new name
"g" is dropped and a later record/normalize run still looks it up as 0. -/
theorem capacity_drop_cold_witness :
    profile_map_increment ⟨List.replicate 256 ⟨"f", 1, 0⟩, 0⟩ "g"
      = ⟨List.replicate 256 ⟨"f", 1, 0⟩, 0⟩ ∧
    profile_lookup (apply_store_ops
      (profile_map_increment ⟨List.replicate 256 ⟨"f", 1, 0⟩, 0⟩ "g")
      [store_op.record "g", store_op.renormalize]) "g" = 0 :=
  capacity_drop_cold ⟨List.replicate 256 ⟨"f", 1, 0⟩, 0⟩ "g"
    [store_op.record "g", store_op.renormalize]
    (by simp [PROFILE_MAP_SIZE])
    (by
      intro e he
      rcases List.eq_of_mem_replicate he with rfl
      decide)

/-- Repeatedly recording the only name of a singleton store adds up. -/
theorem apply_records_replicate (name : String) :
    ∀ (n k : ℕ),
    List.foldl profile_map_increment ⟨[⟨name, k, 0⟩], 0⟩ (List.replicate n name)
      = ⟨[⟨name, k + n, 0⟩], 0⟩ := by
  intro n
  induction n with
  | zero => intro k; rfl
  | succ n ih =>
    intro k
    have hstep : profile_map_increment ⟨[⟨name, k, 0⟩], 0⟩ name
        = ⟨[⟨name, k + 1, 0⟩], 0⟩ := by
      unfold profile_map_increment
      rw [show inc_first [⟨name, k, 0⟩] name = some [⟨name, k + 1, 0⟩] from by
        rw [inc_first, if_pos rfl]]
    have he : k + 1 + n = k + (n + 1) := by omega
    rw [List.replicate_succ, List.foldl_cons, hstep, ih (k + 1), he]

/-- The store of the spec scenario before normalization. -/
theorem hot_cold_entries :
    apply_records profile_map_init (List.replicate 1000 "hot" ++ ["cold"])
      = ⟨[⟨"hot", 1000, 0⟩, ⟨"cold", 1, 0⟩], 0⟩ := by
  have h0 : profile_map_increment profile_map_init "hot" = ⟨[⟨"hot", 1, 0⟩], 0⟩ := by
    unfold profile_map_increment profile_map_init
    norm_num [inc_first, PROFILE_MAP_SIZE]
  have h2 : profile_map_increment ⟨[⟨"hot", 1000, 0⟩], 0⟩ "cold"
      = ⟨[⟨"hot", 1000, 0⟩, ⟨"cold", 1, 0⟩], 0⟩ := by
    unfold profile_map_increment
    norm_num [inc_first, PROFILE_MAP_SIZE, show ("hot" : String) ≠ "cold" from by decide]
  have hrep : List.foldl profile_map_increment profile_map_init (List.replicate 1000 "hot")
      = ⟨[⟨"hot", 1000, 0⟩], 0⟩ := by
    rw [show (1000 : ℕ) = 999 + 1 from rfl, List.replicate_succ, List.foldl_cons, h0,
      apply_records_replicate "hot" 999 1]
  rw [apply_records, List.foldl_append, hrep, List.foldl_cons, List.foldl_nil, h2]

/-- `lookup("hot")` on the normalized scenario store is exactly 1. -/
theorem lookup_hot : profile_lookup hot_cold_store "hot" = 1 := by
  unfold hot_cold_store
  rw [hot_cold_entries]
  norm_num [profile_lookup, profile_map_get, profile_map_normalize, max_count_fold]

/-- `lookup("cold")` on the normalized scenario store is exactly 1/1000. -/
theorem lookup_cold : profile_lookup hot_cold_store "cold" = 1/1000 := by
  unfold hot_cold_store
  rw [hot_cold_entries]
  norm_num [profile_lookup, profile_map_get, profile_map_normalize, max_count_fold,
    show ("hot" : String) ≠ "cold" from by decide]

/-- C5: hot/cold scenario: 1000 records of "hot", one of "cold",
normalized; lookups give 1 and 0.001, and the derived thresholds are 200
and 5. -/
theorem hot_cold_scenario :
    profile_lookup hot_cold_store "hot" = 1 ∧
    profile_lookup hot_cold_store "cold" = 1/1000 ∧
    compute_adjusted_threshold 1 false = 200 ∧
    compute_adjusted_threshold (1/1000) false = 5 :=
  ⟨lookup_hot, lookup_cold, threshold_at_one_false, threshold_at_milli_false⟩

/-- C9: on a callee of price 1 (the hot extreme), the inverted condition
uses threshold 5 — it promotes a call site exactly when the callee body has
fewer than 5 instructions — while shadow-price uses threshold 200. -/
theorem inverted_killer_control (profile : profile_map_t) (nm : String)
    (size rng : ℕ) (hp : profile_lookup profile nm = 1) :
    compute_adjusted_threshold 1 true = 5 ∧
    compute_adjusted_threshold 1 false = 200 ∧
    ((decide_promote experiment_condition_t.COND_INVERTED_PRICE profile rng nm size).1 = true
      ↔ (size : ℤ) < 5) ∧
    ((decide_promote experiment_condition_t.COND_SHADOW_PRICE profile rng nm size).1 = true
      ↔ (size : ℤ) < 200) := by
  refine ⟨threshold_at_one_true, threshold_at_one_false, ?_, ?_⟩
  · have hd : (decide_promote experiment_condition_t.COND_INVERTED_PRICE profile rng nm size).1
        = decide ((size : ℤ)
            < compute_adjusted_threshold (profile_lookup profile nm) true) := rfl
    rw [hd, hp, threshold_at_one_true]
    simp
  · have hd : (decide_promote experiment_condition_t.COND_SHADOW_PRICE profile rng nm size).1
        = decide ((size : ℤ)
            < compute_adjusted_threshold (profile_lookup profile nm) false) := rfl
    rw [hd, hp, threshold_at_one_false]
    simp

/-- Witness for C9 on the scenario store, callee "hot" of size 3. -/
theorem inverted_killer_control_witness :
    compute_adjusted_threshold 1 true = 5 ∧
    compute_adjusted_threshold 1 false = 200 ∧
    ((decide_promote experiment_condition_t.COND_INVERTED_PRICE hot_cold_store RANDOM_SEED
        "hot" 3).1 = true ↔ (3 : ℤ) < 5) ∧
    ((decide_promote experiment_condition_t.COND_SHADOW_PRICE hot_cold_store RANDOM_SEED
        "hot" 3).1 = true ↔ (3 : ℤ) < 200) :=
  inverted_killer_control hot_cold_store "hot" 3 RANDOM_SEED lookup_hot

/-- Under the No-inline condition one step never changes anything. -/
theorem mutate_insn_no_inline (m : mir_module) (p : profile_map_t)
    (st : mutate_state) (insn : mir_insn) :
    mutate_insn m experiment_condition_t.COND_NO_INLINE p st insn = (insn, st) := by
  rw [mutate_insn]
  split
  · split
    · rfl
    · split
      · rfl
      · split
        · rfl
        · rfl
  · rfl

/-- Under the No-inline condition a body pass never changes anything. -/
theorem mutate_insn_list_no_inline (m : mir_module) (p : profile_map_t) :
    ∀ (insns : List mir_insn) (st : mutate_state),
    mutate_insn_list m experiment_condition_t.COND_NO_INLINE p st insns = (insns, st) := by
  intro insns
  induction insns with
  | nil => intro st; rfl
  | cons insn rest ih =>
    intro st
    rw [mutate_insn_list]
    rw [mutate_insn_no_inline, ih]

/-- Under the No-inline condition the outer loop never changes anything. -/
theorem mutate_func_list_no_inline (m : mir_module) (p : profile_map_t) :
    ∀ (fs : List mir_func) (st : mutate_state),
    mutate_func_list m experiment_condition_t.COND_NO_INLINE p st fs = (fs, st) := by
  intro fs
  induction fs with
  | nil => intro st; rfl
  | cons f rest ih =>
    intro st
    rw [mutate_func_list]
    rw [mutate_insn_list_no_inline, ih]

/-- Under the Blind-all condition a resolvable, non-chained call site is
promoted by the step. -/
theorem mutate_insn_blind_all (m : mir_module) (p : profile_map_t)
    (st : mutate_state) (insn : mir_insn) (nm : String) (callee : mir_func)
    (hc : insn.code = insn_code.MIR_CALL) (href : insn.callee_ref = some nm)
    (hres : module_find_func m nm = some callee)
    (hch : chain_contains st.chain nm = false) :
    mutate_insn m experiment_condition_t.COND_BLIND_ALL p st insn
      = (⟨insn_code.MIR_INLINE, insn.callee_ref⟩,
         ⟨chain_push st.chain nm, st.rng, st.mutations + 1⟩) := by
  rw [mutate_insn, if_pos hc, href]
  dsimp only
  rw [hres]
  dsimp only
  rw [hch]
  rfl

/-- C4: under No-inline, `mutate_module` returns the unit unchanged with 0
promotions (every call instruction is left as `MIR_CALL`); under Blind-all,
a call site whose callee resolves to a function of the module and whose
name is not in the chain is promoted to `MIR_INLINE`. -/
theorem no_inline_blind_all_boundary (m : mir_module) (profile : profile_map_t)
    (rng : ℕ) (st : mutate_state) (insn : mir_insn) (nm : String) (callee : mir_func)
    (hc : insn.code = insn_code.MIR_CALL) (href : insn.callee_ref = some nm)
    (hres : module_find_func m nm = some callee)
    (hch : chain_contains st.chain nm = false) :
    mutate_module m experiment_condition_t.COND_NO_INLINE profile rng = (m, 0) ∧
    (mutate_insn m experiment_condition_t.COND_BLIND_ALL profile st insn).1
      = ⟨insn_code.MIR_INLINE, insn.callee_ref⟩ := by
  constructor
  · unfold mutate_module mutate_module_full
    rw [mutate_func_list_no_inline]
  · rw [mutate_insn_blind_all m profile st insn nm callee hc href hres hch]

/-- Witness for C4: a two-function module, a call site on "g". -/
theorem no_inline_blind_all_boundary_witness :
    mutate_module ⟨[⟨"g", [⟨insn_code.MIR_OTHER, none⟩]⟩,
        ⟨"h", [⟨insn_code.MIR_CALL, some "g"⟩]⟩]⟩
      experiment_condition_t.COND_NO_INLINE profile_map_init RANDOM_SEED
      = (⟨[⟨"g", [⟨insn_code.MIR_OTHER, none⟩]⟩,
          ⟨"h", [⟨insn_code.MIR_CALL, some "g"⟩]⟩]⟩, 0) ∧
    (mutate_insn ⟨[⟨"g", [⟨insn_code.MIR_OTHER, none⟩]⟩,
        ⟨"h", [⟨insn_code.MIR_CALL, some "g"⟩]⟩]⟩
      experiment_condition_t.COND_BLIND_ALL profile_map_init
      ⟨⟨[]⟩, RANDOM_SEED, 0⟩ ⟨insn_code.MIR_CALL, some "g"⟩).1
      = ⟨insn_code.MIR_INLINE, some "g"⟩ :=
  no_inline_blind_all_boundary
    ⟨[⟨"g", [⟨insn_code.MIR_OTHER, none⟩]⟩, ⟨"h", [⟨insn_code.MIR_CALL, some "g"⟩]⟩]⟩
    profile_map_init RANDOM_SEED ⟨⟨[]⟩, RANDOM_SEED, 0⟩
    ⟨insn_code.MIR_CALL, some "g"⟩ "g" ⟨"g", [⟨insn_code.MIR_OTHER, none⟩]⟩
    rfl rfl (by decide) rfl

/-- The chain scan decides membership in the name list. -/
theorem chain_contains_iff (ch : inline_chain_t) (x : String) :
    chain_contains ch x = true ↔ x ∈ ch.names := by
  simp [chain_contains]

/-- A successful push appends the name. -/
theorem chain_push_names (ch : inline_chain_t) (x : String)
    (h : ch.names.length < MAX_INLINE_CHAIN) :
    (chain_push ch x).names = ch.names ++ [x] := by
  unfold chain_push
  rw [if_pos h]

/-- Pushing never shortens the chain. -/
theorem chain_push_length_ge (ch : inline_chain_t) (x : String) :
    ch.names.length ≤ (chain_push ch x).names.length := by
  unfold chain_push
  split
  · simp
  · exact le_refl _

/-- One mutation step only appends to the chain. -/
theorem mutate_insn_chain_ext (m : mir_module) (c : experiment_condition_t)
    (p : profile_map_t) (st : mutate_state) (insn : mir_insn) :
    ∃ l, (mutate_insn m c p st insn).2.chain.names = st.chain.names ++ l := by
  rw [mutate_insn]
  split
  · split
    · exact ⟨[], (List.append_nil _).symm⟩
    · split
      · exact ⟨[], (List.append_nil _).symm⟩
      · split
        · exact ⟨[], (List.append_nil _).symm⟩
        · dsimp only
          split
          · show ∃ l, (chain_push st.chain _).names = st.chain.names ++ l
            unfold chain_push
            split
            · exact ⟨[_], rfl⟩
            · exact ⟨[], (List.append_nil _).symm⟩
          · exact ⟨[], (List.append_nil _).symm⟩
  · exact ⟨[], (List.append_nil _).symm⟩

/-- A body pass only appends to the chain. -/
theorem mutate_insn_list_chain_ext (m : mir_module) (c : experiment_condition_t)
    (p : profile_map_t) :
    ∀ (insns : List mir_insn) (st : mutate_state),
    ∃ l, (mutate_insn_list m c p st insns).2.chain.names = st.chain.names ++ l := by
  intro insns
  induction insns with
  | nil => intro st; exact ⟨[], (List.append_nil _).symm⟩
  | cons insn rest ih =>
    intro st
    rw [mutate_insn_list]
    dsimp only
    obtain ⟨l1, h1⟩ := mutate_insn_chain_ext m c p st insn
    obtain ⟨l2, h2⟩ := ih (mutate_insn m c p st insn).2
    exact ⟨l1 ++ l2, by rw [h2, h1, List.append_assoc]⟩

/-- The whole pass only appends to the chain. -/
theorem mutate_func_list_chain_ext (m : mir_module) (c : experiment_condition_t)
    (p : profile_map_t) :
    ∀ (fs : List mir_func) (st : mutate_state),
    ∃ l, (mutate_func_list m c p st fs).2.chain.names = st.chain.names ++ l := by
  intro fs
  induction fs with
  | nil => intro st; exact ⟨[], (List.append_nil _).symm⟩
  | cons f rest ih =>
    intro st
    rw [mutate_func_list]
    dsimp only
    obtain ⟨l1, h1⟩ := mutate_insn_list_chain_ext m c p f.insns st
    obtain ⟨l2, h2⟩ := ih (mutate_insn_list m c p st f.insns).2
    exact ⟨l1 ++ l2, by rw [h2, h1, List.append_assoc]⟩

/-- One mutation step either leaves the instruction and the chain and the
counter unchanged, or it promotes: the call resolves, the callee name is
not chained, the code becomes `MIR_INLINE`, the name is pushed, the counter
steps. -/
theorem mutate_insn_cases (m : mir_module) (c : experiment_condition_t)
    (p : profile_map_t) (st : mutate_state) (insn : mir_insn) :
    (∃ r, mutate_insn m c p st insn = (insn, ⟨st.chain, r, st.mutations⟩)) ∨
    (∃ nm0 r, insn.code = insn_code.MIR_CALL ∧ insn.callee_ref = some nm0 ∧
      chain_contains st.chain nm0 = false ∧
      mutate_insn m c p st insn
        = (⟨insn_code.MIR_INLINE, insn.callee_ref⟩,
           ⟨chain_push st.chain nm0, r, st.mutations + 1⟩)) := by
  rw [mutate_insn]
  split
  · rename_i hcode
    split
    · exact Or.inl ⟨st.rng, rfl⟩
    · rename_i nm0 href
      split
      · exact Or.inl ⟨st.rng, rfl⟩
      · split
        · exact Or.inl ⟨st.rng, rfl⟩
        · rename_i hch
          dsimp only
          split
          · exact Or.inr ⟨nm0, _, hcode, href, Bool.not_eq_true _ ▸ eq_false_of_ne_true hch, rfl⟩
          · exact Or.inl ⟨_, rfl⟩
  · exact Or.inl ⟨st.rng, rfl⟩

/-- Unfolding of the promoted-site count over a cons pair. -/
theorem promoted_cons (a b : mir_insn) (l1 l2 : List mir_insn) (nm : String) :
    promoted_in_insn_lists (a :: l1) (b :: l2) nm
      = (if (a.code == insn_code.MIR_CALL && b.code == insn_code.MIR_INLINE
            && a.callee_ref == some nm) then 1 else 0)
        + promoted_in_insn_lists l1 l2 nm := by
  unfold promoted_in_insn_lists
  rw [List.zip_cons_cons, List.countP_cons, Nat.add_comm]

/-- Core bound for one body: under a pass whose chain never overflows, each
callee name is promoted at most once, a name already chained is never
promoted, and a promoted name ends up in the chain. -/
theorem mutate_insn_list_promoted_bound (m : mir_module) (c : experiment_condition_t)
    (p : profile_map_t) :
    ∀ (insns : List mir_insn) (st : mutate_state) (nm : String),
    (mutate_insn_list m c p st insns).2.chain.names.length < MAX_INLINE_CHAIN →
    (promoted_in_insn_lists insns (mutate_insn_list m c p st insns).1 nm
        + (if nm ∈ st.chain.names then 1 else 0) ≤ 1)
    ∧ (1 ≤ promoted_in_insn_lists insns (mutate_insn_list m c p st insns).1 nm →
        nm ∈ (mutate_insn_list m c p st insns).2.chain.names) := by
  intro insns
  induction insns with
  | nil =>
    intro st nm hcap
    have h0 : promoted_in_insn_lists [] (mutate_insn_list m c p st []).1 nm = 0 := rfl
    constructor
    · rw [h0]
      split <;> omega
    · intro h
      rw [h0] at h
      exact absurd h (by omega)
  | cons insn rest ih =>
    intro st nm hcap
    rw [mutate_insn_list] at hcap ⊢
    dsimp only at hcap ⊢
    rcases mutate_insn_cases m c p st insn with ⟨r, heq⟩ | ⟨nm0, r, hcode, href, hch, heq⟩
    · rw [heq] at hcap ⊢
      dsimp only at hcap ⊢
      rw [promoted_cons]
      have hhead : (insn.code == insn_code.MIR_CALL && insn.code == insn_code.MIR_INLINE
          && insn.callee_ref == some nm) = false := by
        cases hc : insn.code <;> simp [hc]
      rw [hhead]
      simp only [Bool.false_eq_true, if_false, Nat.zero_add]
      obtain ⟨ihA, ihB⟩ := ih ⟨st.chain, r, st.mutations⟩ nm hcap
      exact ⟨ihA, ihB⟩
    · rw [heq] at hcap ⊢
      dsimp only at hcap ⊢
      rw [promoted_cons]
      have hlt : st.chain.names.length < MAX_INLINE_CHAIN := by
        by_contra hge
        have hpush : chain_push st.chain nm0 = st.chain := by
          unfold chain_push
          rw [if_neg hge]
        rw [hpush] at hcap
        obtain ⟨l2, h2⟩ :=
          mutate_insn_list_chain_ext m c p rest ⟨st.chain, r, st.mutations + 1⟩
        rw [h2] at hcap
        simp only [List.length_append] at hcap
        omega
      have hnames : (chain_push st.chain nm0).names = st.chain.names ++ [nm0] :=
        chain_push_names st.chain nm0 hlt
      have hmem0 : nm0 ∉ st.chain.names := by
        intro hmem
        have := (chain_contains_iff st.chain nm0).2 hmem
        rw [hch] at this
        exact Bool.false_ne_true this
      obtain ⟨ihA, ihB⟩ := ih ⟨chain_push st.chain nm0, r, st.mutations + 1⟩ nm hcap
      by_cases hnm : nm0 = nm
      · subst hnm
        have hhead : (insn.code == insn_code.MIR_CALL
            && (⟨insn_code.MIR_INLINE, insn.callee_ref⟩ : mir_insn).code == insn_code.MIR_INLINE
            && insn.callee_ref == some nm0) = true := by
          simp [hcode, href]
        rw [hhead]
        simp only [if_true]
        have hmem1 : nm0 ∈ (chain_push st.chain nm0).names := by
          rw [hnames]
          exact List.mem_append.2 (Or.inr (List.mem_singleton.2 rfl))
        have hrest0 : promoted_in_insn_lists rest
            (mutate_insn_list m c p ⟨chain_push st.chain nm0, r, st.mutations + 1⟩ rest).1 nm0
            = 0 := by
          have hA := ihA
          rw [if_pos hmem1] at hA
          omega
        constructor
        · rw [hrest0, if_neg hmem0]
        · intro _
          obtain ⟨l2, h2⟩ :=
            mutate_insn_list_chain_ext m c p rest ⟨chain_push st.chain nm0, r, st.mutations + 1⟩
          rw [h2]
          exact List.mem_append.2 (Or.inl hmem1)
      · have hhead : (insn.code == insn_code.MIR_CALL
            && (⟨insn_code.MIR_INLINE, insn.callee_ref⟩ : mir_insn).code == insn_code.MIR_INLINE
            && insn.callee_ref == some nm) = false := by
          simp [href]
          intro
          exact fun h => hnm h
        rw [hhead]
        simp only [Bool.false_eq_true, if_false, Nat.zero_add]
        have hindeq : (if nm ∈ (chain_push st.chain nm0).names then (1:ℕ) else 0)
            = (if nm ∈ st.chain.names then 1 else 0) := by
          rw [hnames]
          by_cases hmm : nm ∈ st.chain.names
          · rw [if_pos hmm, if_pos (List.mem_append.2 (Or.inl hmm))]
          · rw [if_neg hmm, if_neg]
            intro hcon
            rcases List.mem_append.1 hcon with h | h
            · exact hmm h
            · exact hnm (List.mem_singleton.1 h).symm
        constructor
        · have hA := ihA
          rw [hindeq] at hA
          exact hA
        · exact ihB

/-- Unfolding of the promoted-site count over paired function conses. -/
theorem promoted_funcs_cons (f g : mir_func) (fs gs : List mir_func) (nm : String) :
    promoted_in_func_lists (f :: fs) (g :: gs) nm
      = promoted_in_insn_lists f.insns g.insns nm + promoted_in_func_lists fs gs nm := by
  unfold promoted_in_func_lists
  rw [List.zip_cons_cons, List.map_cons, List.sum_cons]

/-- Core bound for the whole pass: under a chain that never overflows, each
callee name is promoted at most once across all functions. -/
theorem mutate_func_list_promoted_bound (m : mir_module) (c : experiment_condition_t)
    (p : profile_map_t) :
    ∀ (fs : List mir_func) (st : mutate_state) (nm : String),
    (mutate_func_list m c p st fs).2.chain.names.length < MAX_INLINE_CHAIN →
    (promoted_in_func_lists fs (mutate_func_list m c p st fs).1 nm
        + (if nm ∈ st.chain.names then 1 else 0) ≤ 1)
    ∧ (1 ≤ promoted_in_func_lists fs (mutate_func_list m c p st fs).1 nm →
        nm ∈ (mutate_func_list m c p st fs).2.chain.names) := by
  intro fs
  induction fs with
  | nil =>
    intro st nm hcap
    have h0 : promoted_in_func_lists [] (mutate_func_list m c p st []).1 nm = 0 := rfl
    constructor
    · rw [h0]
      split <;> omega
    · intro h
      rw [h0] at h
      exact absurd h (by omega)
  | cons f rest ih =>
    intro st nm hcap
    rw [mutate_func_list] at hcap ⊢
    dsimp only at hcap ⊢
    rw [promoted_funcs_cons]
    dsimp only
    have hcap1 : (mutate_insn_list m c p st f.insns).2.chain.names.length
        < MAX_INLINE_CHAIN := by
      obtain ⟨l2, h2⟩ :=
        mutate_func_list_chain_ext m c p rest (mutate_insn_list m c p st f.insns).2
      rw [h2] at hcap
      simp only [List.length_append] at hcap
      omega
    obtain ⟨iA, iB⟩ := mutate_insn_list_promoted_bound m c p f.insns st nm hcap1
    obtain ⟨ihA, ihB⟩ := ih (mutate_insn_list m c p st f.insns).2 nm hcap
    have hmono : nm ∈ st.chain.names →
        nm ∈ (mutate_insn_list m c p st f.insns).2.chain.names := by
      intro h
      obtain ⟨l1, h1⟩ := mutate_insn_list_chain_ext m c p f.insns st
      rw [h1]
      exact List.mem_append.2 (Or.inl h)
    by_cases hmem : nm ∈ st.chain.names
    · have hmem1 := hmono hmem
      have hi0 : promoted_in_insn_lists f.insns
          (mutate_insn_list m c p st f.insns).1 nm = 0 := by
        have hA := iA
        rw [if_pos hmem] at hA
        omega
      have hr0 : promoted_in_func_lists rest
          (mutate_func_list m c p (mutate_insn_list m c p st f.insns).2 rest).1 nm = 0 := by
        have hA := ihA
        rw [if_pos hmem1] at hA
        omega
      constructor
      · rw [hi0, hr0, if_pos hmem]
      · intro h
        rw [hi0, hr0] at h
        exact absurd h (by omega)
    · rw [if_neg hmem]
      by_cases h1 : 1 ≤ promoted_in_insn_lists f.insns
          (mutate_insn_list m c p st f.insns).1 nm
      · have hmem1 := iB h1
        have hle1 : promoted_in_insn_lists f.insns
            (mutate_insn_list m c p st f.insns).1 nm ≤ 1 := by
          have hA := iA
          rw [if_neg hmem] at hA
          omega
        have hr0 : promoted_in_func_lists rest
            (mutate_func_list m c p (mutate_insn_list m c p st f.insns).2 rest).1 nm = 0 := by
          have hA := ihA
          rw [if_pos hmem1] at hA
          omega
        constructor
        · rw [hr0]
          omega
        · intro _
          obtain ⟨l2, h2⟩ :=
            mutate_func_list_chain_ext m c p rest (mutate_insn_list m c p st f.insns).2
          rw [h2]
          exact List.mem_append.2 (Or.inl hmem1)
      · have hi0 : promoted_in_insn_lists f.insns
            (mutate_insn_list m c p st f.insns).1 nm = 0 := by omega
        have hr1 : promoted_in_func_lists rest
            (mutate_func_list m c p (mutate_insn_list m c p st f.insns).2 rest).1 nm ≤ 1 := by
          by_cases hx : nm ∈ (mutate_insn_list m c p st f.insns).2.chain.names
          · have hA := ihA
            rw [if_pos hx] at hA
            omega
          · have hA := ihA
            rw [if_neg hx] at hA
            omega
        constructor
        · rw [hi0]
          omega
        · intro h
          rw [hi0] at h
          exact ihB (by omega)

/-- C2 (amended): a pass whose InlineChain does not fill up to its
`MAX_INLINE_CHAIN` capacity promotes at most one call site per distinct
callee name. -/
theorem promotion_unique_per_name (m : mir_module) (condition : experiment_condition_t)
    (profile : profile_map_t) (rng : ℕ) (nm : String)
    (hcap : (mutate_module_full m condition profile rng).2.chain.names.length
        < MAX_INLINE_CHAIN) :
    promoted_in_module m (mutate_module m condition profile rng).1 nm ≤ 1 := by
  unfold mutate_module_full at hcap
  dsimp only at hcap
  unfold mutate_module mutate_module_full promoted_in_module
  dsimp only
  have hb := (mutate_func_list_promoted_bound m condition profile m.funcs
    ⟨⟨[]⟩, rng, 0⟩ nm hcap).1
  rw [if_neg (List.not_mem_nil nm)] at hb
  omega

/-- Witness for C2 (amended) on a two-function module under Blind-all. -/
theorem promotion_unique_per_name_witness :
    promoted_in_module ⟨[⟨"g", [⟨insn_code.MIR_OTHER, none⟩]⟩,
        ⟨"h", [⟨insn_code.MIR_CALL, some "g"⟩]⟩]⟩
      (mutate_module ⟨[⟨"g", [⟨insn_code.MIR_OTHER, none⟩]⟩,
          ⟨"h", [⟨insn_code.MIR_CALL, some "g"⟩]⟩]⟩
        experiment_condition_t.COND_BLIND_ALL profile_map_init RANDOM_SEED).1 "g" ≤ 1 :=
  promotion_unique_per_name
    ⟨[⟨"g", [⟨insn_code.MIR_OTHER, none⟩]⟩, ⟨"h", [⟨insn_code.MIR_CALL, some "g"⟩]⟩]⟩
    experiment_condition_t.COND_BLIND_ALL profile_map_init RANDOM_SEED "g" (by decide)

/-- A non-call instruction is left untouched by the step. -/
theorem mutate_insn_not_call (m : mir_module) (c : experiment_condition_t)
    (p : profile_map_t) (st : mutate_state) (insn : mir_insn)
    (h : insn.code ≠ insn_code.MIR_CALL) :
    mutate_insn m c p st insn = (insn, st) := by
  rw [mutate_insn, if_neg h]

/-- A body without call instructions is left untouched by the pass. -/
theorem mutate_insn_list_no_calls (m : mir_module) (c : experiment_condition_t)
    (p : profile_map_t) :
    ∀ (insns : List mir_insn) (st : mutate_state),
    (∀ i ∈ insns, i.code ≠ insn_code.MIR_CALL) →
    mutate_insn_list m c p st insns = (insns, st) := by
  intro insns
  induction insns with
  | nil => intro st _; rfl
  | cons insn rest ih =>
    intro st h
    rw [mutate_insn_list,
      mutate_insn_not_call m c p st insn (h insn (List.mem_cons_self insn rest)),
      ih st (fun i hi => h i (List.mem_cons_of_mem _ hi))]

/-- Functions without call instructions are left untouched by the pass. -/
theorem mutate_func_list_no_calls (m : mir_module) (c : experiment_condition_t)
    (p : profile_map_t) :
    ∀ (fs : List mir_func) (st : mutate_state),
    (∀ f ∈ fs, ∀ i ∈ f.insns, i.code ≠ insn_code.MIR_CALL) →
    mutate_func_list m c p st fs = (fs, st) := by
  intro fs
  induction fs with
  | nil => intro st _; rfl
  | cons f rest ih =>
    intro st h
    rw [mutate_func_list,
      mutate_insn_list_no_calls m c p f.insns st (h f (List.mem_cons_self f rest)),
      ih st (fun g hg => h g (List.mem_cons_of_mem _ hg))]

/-- Under Blind-all a run of call instructions to resolvable, per-step
fresh callee names is promoted wholesale: every call becomes `MIR_INLINE`,
the chain evolves by pushes, and the counter advances by the run length. -/
theorem blind_all_run (m : mir_module) (p : profile_map_t) :
    ∀ (ns : List String) (st : mutate_state),
    (∀ nm ∈ ns, (module_find_func m nm).isSome = true) →
    all_fresh st.chain ns = true →
    mutate_insn_list m experiment_condition_t.COND_BLIND_ALL p st
        (ns.map (fun nm => ⟨insn_code.MIR_CALL, some nm⟩))
      = (ns.map (fun nm => ⟨insn_code.MIR_INLINE, some nm⟩),
         ⟨blind_chain st.chain ns, st.rng, st.mutations + ns.length⟩) := by
  intro ns
  induction ns with
  | nil => intro st _ _; rfl
  | cons nm rest ih =>
    intro st hres hfresh
    rw [all_fresh, Bool.and_eq_true] at hfresh
    have hcon : chain_contains st.chain nm = false := by
      have h1 := hfresh.1
      cases hc : chain_contains st.chain nm
      · rfl
      · rw [hc] at h1; exact absurd h1 (by decide)
    obtain ⟨f, hf⟩ := Option.isSome_iff_exists.1 (hres nm (List.mem_cons_self nm rest))
    rw [List.map_cons, List.map_cons, mutate_insn_list]
    rw [mutate_insn_blind_all m p st ⟨insn_code.MIR_CALL, some nm⟩ nm f rfl rfl hf hcon]
    dsimp only
    rw [ih ⟨chain_push st.chain nm, st.rng, st.mutations + 1⟩
      (fun nm2 h2 => hres nm2 (List.mem_cons_of_mem _ h2)) hfresh.2]
    rw [blind_chain, List.length_cons]
    have hm : st.mutations + 1 + rest.length = st.mutations + (rest.length + 1) := by omega
    rw [hm]

/-- Splitting a run: freshness of an appended run. -/
theorem all_fresh_append (l1 : List String) :
    ∀ (l2 : List String) (c : inline_chain_t),
    all_fresh c (l1 ++ l2) = (all_fresh c l1 && all_fresh (blind_chain c l1) l2) := by
  induction l1 with
  | nil =>
    intro l2 c
    simp [all_fresh, blind_chain]
  | cons a rest ih =>
    intro l2 c
    rw [List.cons_append, all_fresh, all_fresh, blind_chain, ih l2 (chain_push c a),
      Bool.and_assoc]

/-- A run of distinct names never seen in the chain is fresh throughout. -/
theorem all_fresh_of_nodup : ∀ (ns : List String) (c : inline_chain_t),
    ns.Nodup → (∀ nm ∈ ns, nm ∉ c.names) → all_fresh c ns = true := by
  intro ns
  induction ns with
  | nil => intro c _ _; rfl
  | cons nm rest ih =>
    intro c hnd hmem
    rw [all_fresh]
    have hc : chain_contains c nm = false := by
      cases hcc : chain_contains c nm
      · rfl
      · exact absurd ((chain_contains_iff c nm).1 hcc)
          (hmem nm (List.mem_cons_self nm rest))
    rw [hc]
    simp only [Bool.not_false, Bool.true_and]
    apply ih (chain_push c nm) (List.nodup_cons.1 hnd).2
    intro x hx hxin
    have hsub : (chain_push c nm).names = c.names ++ [nm] ∨
        (chain_push c nm).names = c.names := by
      unfold chain_push
      split
      · exact Or.inl rfl
      · exact Or.inr rfl
    rcases hsub with h | h
    · rw [h] at hxin
      rcases List.mem_append.1 hxin with h2 | h2
      · exact hmem x (List.mem_cons_of_mem _ hx) h2
      · rcases List.mem_singleton.1 h2 with rfl
        exact (List.nodup_cons.1 hnd).1 hx
    · rw [h] at hxin
      exact hmem x (List.mem_cons_of_mem _ hx) hxin

/-- The chain after a run of pushes: the old names followed by the run,
truncated at the chain capacity. -/
theorem blind_chain_names : ∀ (ns : List String) (c : inline_chain_t),
    (blind_chain c ns).names
      = c.names ++ ns.take (MAX_INLINE_CHAIN - c.names.length) := by
  intro ns
  induction ns with
  | nil =>
    intro c
    simp [blind_chain]
  | cons nm rest ih =>
    intro c
    rw [blind_chain, ih]
    by_cases h : c.names.length < MAX_INLINE_CHAIN
    · rw [chain_push_names c nm h]
      simp only [List.length_append, List.length_singleton]
      obtain ⟨k, hk⟩ : ∃ k, MAX_INLINE_CHAIN - c.names.length = k + 1 :=
        ⟨MAX_INLINE_CHAIN - c.names.length - 1, by omega⟩
      have hk2 : MAX_INLINE_CHAIN - (c.names.length + 1) = k := by omega
      rw [hk, hk2, List.take_succ_cons, List.append_assoc, List.singleton_append]
    · have hpush : chain_push c nm = c := by
        unfold chain_push
        rw [if_neg h]
      have h0 : MAX_INLINE_CHAIN - c.names.length = 0 := by omega
      rw [hpush, h0, List.take_zero, List.take_zero]

/-- The 65 overflow callee names are distinct (via their codepoints, which
the kernel compares natively). -/
theorem overflow_names_nodup : overflow_names.Nodup := by
  have h : overflow_names.map str_codes = [[35], [36], [37], [48], [49], [50], [51], [52], [53], [54], [55], [56], [57], [65], [66], [67], [68], [69], [70], [71], [72], [73], [74], [75], [76], [77], [78], [79], [80], [81], [82], [83], [84], [85], [86], [87], [88], [89], [90], [97], [98], [99], [100], [101], [102], [103], [104], [105], [106], [107], [108], [109], [110], [111], [112], [113], [114], [115], [116], [117], [118], [119], [120], [121], [122]] := rfl
  have h2 : (overflow_names.map str_codes).Nodup := by
    rw [h]
    decide
  exact h2.of_map str_codes

/-- Every name the driver calls resolves to a function of the module. -/
theorem overflow_resolvable : ∀ nm ∈ overflow_call_names,
    (module_find_func overflow_module nm).isSome = true := by
  intro nm hnm
  have hd : nm ∈ overflow_names := by
    rcases List.mem_append.1 hnm with h | h
    · exact h
    · rcases List.mem_singleton.1 h with rfl
      exact List.mem_append.2 (Or.inr (List.mem_singleton.2 rfl))
  have hf : (⟨nm, [⟨insn_code.MIR_OTHER, none⟩]⟩ : mir_func) ∈ overflow_module.funcs := by
    show _ ∈ overflow_caller :: overflow_callees
    exact List.mem_cons_of_mem _ (List.mem_map.2 ⟨nm, hd, rfl⟩)
  unfold module_find_func
  rw [List.find?_isSome]
  exact ⟨_, hf, by simp⟩

/-- The driver's run of callee names is fresh throughout: the 65 distinct
names are never re-pushed, and the second "z" is fresh because the chain
capped at 64 names before "z" could be recorded. -/
theorem overflow_fresh : all_fresh ⟨[]⟩ overflow_call_names = true := by
  rw [show overflow_call_names = overflow_names ++ ["z"] from rfl, all_fresh_append]
  have h1 : all_fresh ⟨[]⟩ overflow_names = true :=
    all_fresh_of_nodup overflow_names ⟨[]⟩ overflow_names_nodup
      (fun nm _ h => List.not_mem_nil nm h)
  rw [h1, Bool.true_and, all_fresh]
  have hz : chain_contains (blind_chain ⟨[]⟩ overflow_names) "z" = false := by
    cases hcc : chain_contains (blind_chain ⟨[]⟩ overflow_names) "z"
    · rfl
    · exfalso
      have hmem := (chain_contains_iff _ _).1 hcc
      rw [blind_chain_names] at hmem
      have hlen : ((⟨[]⟩ : inline_chain_t).names).length = 0 := rfl
      rw [hlen, Nat.sub_zero] at hmem
      have hfr : overflow_names.take MAX_INLINE_CHAIN = overflow_front := by
        rw [show overflow_names = overflow_front ++ ["z"] from rfl]
        exact List.take_left' (by rfl)
      rw [show ((⟨[]⟩ : inline_chain_t).names) = [] from rfl, List.nil_append, hfr] at hmem
      have hdisj := (List.nodup_append.1 overflow_names_nodup).2.2
      exact hdisj hmem (List.mem_singleton.2 rfl)
  rw [hz]
  rfl

/-- The full Blind-all pass on the overflow module. -/
theorem overflow_pass :
    mutate_func_list overflow_module experiment_condition_t.COND_BLIND_ALL profile_map_init
      ⟨⟨[]⟩, RANDOM_SEED, 0⟩ overflow_module.funcs
      = (⟨"main", overflow_call_names.map (fun nm => ⟨insn_code.MIR_INLINE, some nm⟩)⟩
          :: overflow_callees,
         ⟨blind_chain ⟨[]⟩ overflow_call_names, RANDOM_SEED,
          0 + overflow_call_names.length⟩) := by
  have hnc : ∀ f ∈ overflow_callees, ∀ i ∈ f.insns,
      i.code ≠ insn_code.MIR_CALL := by
    intro f hf i hi
    rcases List.mem_map.1 hf with ⟨nm, _, rfl⟩
    rcases List.mem_singleton.1 hi with rfl
    decide
  show mutate_func_list overflow_module experiment_condition_t.COND_BLIND_ALL profile_map_init
      ⟨⟨[]⟩, RANDOM_SEED, 0⟩ (overflow_caller :: overflow_callees) = _
  rw [mutate_func_list]
  dsimp only [overflow_caller]
  rw [blind_all_run overflow_module profile_map_init overflow_call_names
    ⟨⟨[]⟩, RANDOM_SEED, 0⟩ overflow_resolvable overflow_fresh]
  dsimp only
  rw [mutate_func_list_no_calls overflow_module experiment_condition_t.COND_BLIND_ALL
    profile_map_init overflow_callees
    ⟨blind_chain ⟨[]⟩ overflow_call_names, RANDOM_SEED, 0 + overflow_call_names.length⟩ hnc]

/-- Counterexample to C2 as stated: in a module whose driver calls 65
distinct callees once each and then the 65th callee "z" again, Blind-all
promotes "z" twice: after 64 successful pushes the chain is full,
`chain_push` fails silently (its return value is discarded by
`mutate_module`), so "z" is never recorded and its second call site is
promoted again in the same pass. -/
theorem chain_overflow_counterexample :
    promoted_in_module overflow_module
      (mutate_module overflow_module experiment_condition_t.COND_BLIND_ALL
        profile_map_init RANDOM_SEED).1 "z" = 2 := by
  unfold mutate_module mutate_module_full
  dsimp only
  rw [overflow_pass]
  decide
